import Mathlib

/-!
Verification of the fileserver backend (`main.go`): the multi-strategy
path resolver, the directory lister, the content endpoint and the
JSON-path query evaluator.

The filesystem is modelled abstractly: a status map (`stat`), a directory
enumeration (`readDir`) and a byte-content map (`readFile`).  Paths are
strings; the Go standard-library helpers the code calls
(`filepath.Clean`, `filepath.Join`, `filepath.Rel`, `filepath.Ext`,
`strings.Split`, `strings.Contains`, `strings.HasPrefix`) are embedded
as executable functions on character lists, following the Unix
implementations in the Go standard library.  `json.Unmarshal` is an
uninterpreted parameter of the query handler; decoded JSON documents are
a six-way tagged tree.  `strings.ToLower` is embedded as ASCII
lowercasing: the results are only ever compared with the ASCII literals
".md" and ".json", and no character outside ASCII lowercases onto the
letters of those literals, so the comparison outcomes agree.
`sort.Slice` (an unstable sort) is embedded as an insertion sort; every
property proved about the listing order holds for any permutation sorted
under the same comparator.
-/

namespace Fileserver

/-! ## Character-list utilities (Go `strings` helpers) -/

/-- Embedding of Go `strings.Split` for a one-character separator. -/
def splitOnChar (sep : Char) : List Char → List (List Char)
  | [] => [[]]
  | c :: cs =>
    if c = sep then [] :: splitOnChar sep cs
    else
      match splitOnChar sep cs with
      | [] => [[c]]
      | g :: gs => (c :: g) :: gs

/-- Join character groups with a separator (inverse of `splitOnChar`). -/
def intercalateChar (sep : Char) : List (List Char) → List Char
  | [] => []
  | [g] => g
  | g :: gs => g ++ sep :: intercalateChar sep gs

/-- Embedding of Go `strings.Contains`: `pat` occurs as a contiguous
substring of the second argument. -/
def containsSub (pat : List Char) : List Char → Bool
  | [] => pat.isPrefixOf ([] : List Char)
  | c :: rest => pat.isPrefixOf (c :: rest) || containsSub pat rest

/-- Go string comparison `<` (byte-lexicographic; UTF-8 byte order and
code-point order coincide). -/
def charListLt : List Char → List Char → Bool
  | [], [] => false
  | [], _ :: _ => true
  | _ :: _, [] => false
  | a :: as, b :: bs => if a < b then true else if b < a then false else charListLt as bs

/-- Embedding of Go `strings.HasPrefix`. -/
def strHasPrefix (s pre : String) : Bool :=
  pre.data.isPrefixOf s.data

/-- Decimal value of a digit string. -/
def digitsVal (ds : List Char) : Nat :=
  ds.foldl (fun n c => 10 * n + (c.toNat - '0'.toNat)) 0

/-- The value `fmt.Sscanf` with verb `%d` leaves in `idx` for a
non-empty decimal digit string: the decimal value when it fits in a
signed 64-bit int (the `int` width on the server's 64-bit platforms);
when it does not, `strconv.ParseInt` fails, the handler discards the
returned error, and `idx` keeps the initial value 0 it was declared
with. -/
def digitsToNat (ds : List Char) : Nat :=
  if digitsVal ds ≤ 9223372036854775807 then digitsVal ds else 0

/-- Helper for `filepath.Ext`, scanning the reversed path: collect
characters until the final dot of the last path element (inclusive);
empty when a separator or the start of the string is reached first. -/
def extAux : List Char → List Char → List Char
  | [], _ => []
  | c :: rest, acc =>
    if c = '/' then []
    else if c = '.' then c :: acc
    else extAux rest (c :: acc)

/-- Embedding of `strings.ToLower(filepath.Ext(path))` as used by the
handlers (ASCII lowering; see the header note). -/
def extLower (p : String) : String :=
  ⟨(extAux p.data.reverse []).map Char.toLower⟩

/-! ## Go `path/filepath` helpers (Unix) -/

/-- One element step of `filepath.Clean`'s lexical loop: the stack holds
the output elements in reverse.  Empty and `.` elements are dropped;
`..` pops a poppable element, is dropped at the root, and accumulates
otherwise. -/
def cleanStep (rooted : Bool) (stack : List (List Char)) (elem : List Char) : List (List Char) :=
  if elem = [] ∨ elem = ['.'] then stack
  else if elem = ['.', '.'] then
    match stack with
    | [] => if rooted then [] else [['.', '.']]
    | top :: rest => if top = ['.', '.'] then ['.', '.'] :: top :: rest else rest
  else elem :: stack

/-- Embedding of Go `filepath.Clean` (Unix) on character lists. -/
def pathCleanData (p : List Char) : List Char :=
  if p = [] then ['.']
  else
    let rooted := p.head? == some '/'
    let stack := (splitOnChar '/' p).foldl (cleanStep rooted) []
    let body := intercalateChar '/' stack.reverse
    if rooted then '/' :: body
    else if body = [] then ['.'] else body

/-- Embedding of Go `filepath.Clean` (Unix). -/
def pathClean (p : String) : String :=
  ⟨pathCleanData p.data⟩

/-- Embedding of Go `filepath.Join` with two arguments: empty elements
are skipped and the result is cleaned. -/
def pathJoin (a b : String) : String :=
  if a = "" then (if b = "" then "" else pathClean b)
  else ⟨pathCleanData (a.data ++ '/' :: b.data)⟩

/-- Embedding of Go `filepath.Join` with three arguments. -/
def pathJoin3 (a b c : String) : String :=
  if a = "" then pathJoin b c
  else ⟨pathCleanData (a.data ++ '/' :: (b.data ++ '/' :: c.data))⟩

/-- Embedding of Go `filepath.IsAbs` (Unix). -/
def isAbs (p : String) : Bool :=
  p.data.head? == some '/'

/-- Positional segment view of a cleaned path, as walked by the element
comparison loop of `filepath.Rel`: the empty path has no segments and
the root path `/` has exactly the one empty segment before its
separator. -/
def relSegs (s : String) : List (List Char) :=
  if s.data = [] then []
  else if s.data = ['/'] then [[]]
  else splitOnChar '/' s.data

/-- Drop the longest common segment prefix, returning both remainders
(the candidate-position loop of `filepath.Rel`). -/
def dropCommon : List (List Char) → List (List Char) → List (List Char) × List (List Char)
  | b :: bs, t :: ts => if b = t then dropCommon bs ts else (b :: bs, t :: ts)
  | bs, ts => (bs, ts)

/-- Embedding of Go `filepath.Rel` (Unix); `none` is the error return. -/
def pathRel (basepath targpath : String) : Option String :=
  let base := pathClean basepath
  let targ := pathClean targpath
  if targ = base then some "."
  else
    let base := if base = "." then "" else base
    let baseSlashed := base.data.head? == some '/'
    let targSlashed := targ.data.head? == some '/'
    if baseSlashed ≠ targSlashed then none
    else
      match dropCommon (relSegs base) (relSegs targ) with
      | ([], trem) => some ⟨intercalateChar '/' trem⟩
      | (b :: bs, trem) =>
        if b = ['.', '.'] then none
        else some ⟨intercalateChar '/' (((b :: bs).map fun _ => ['.', '.']) ++ trem)⟩

/-! ## Filesystem model and configuration -/

/-- One entry returned by `os.ReadDir`, together with the result of its
`Info()` call (`infoOk = false` models an `Info()` error). -/
structure DirEnt where
  name : String
  isDir : Bool
  size : Int
  modTime : Nat
  infoOk : Bool
deriving DecidableEq, Repr

/-- Abstract filesystem: `stat p` is `none` when `p` does not exist and
`some d` when it exists with directory flag `d`; `readDir` is `none` on
enumeration error; `readFile` is `none` on read error. -/
structure FS where
  stat : String → Option Bool
  readDir : String → Option (List DirEnt)
  readFile : String → Option String

/-- The request-relevant part of the `Config` struct. -/
structure Config where
  allowedExts : List String
  ignoreHidden : Bool
  readOnly : Bool
deriving DecidableEq, Repr

/-- The configuration `main` installs at startup. -/
def defaultConfig : Config :=
  ⟨[".md", ".json"], true, true⟩

/-- The extension allow-list loop shared by the handlers. -/
def allowedExt (cfg : Config) (ext : String) : Bool :=
  cfg.allowedExts.contains ext

/-! ## Path resolution (shared verbatim by `getFileContent` and `queryJSON`) -/

/-- Does the requested name contain a path separator
(`strings.Contains(requestedFile, "/")`)? -/
def hasSlash (s : String) : Bool :=
  containsSub ['/'] s.data

/-- The status check applied to each candidate: it exists and is not a
directory. -/
def statFile (fs : FS) (p : String) : Bool :=
  fs.stat p == some false

/-- Candidates `baseDir/D/requestedFile` for every immediate
subdirectory `D` of the base (empty on enumeration error). -/
def dirCandidates (fs : FS) (baseDir requestedFile : String) : List String :=
  match fs.readDir baseDir with
  | some entries => (entries.filter fun e => e.isDir).map fun e => pathJoin3 baseDir e.name requestedFile
  | none => []

/-- The `filePaths` slice both handlers build: the directory hint first
when present, then the direct join, then the one-level-down fallback for
separator-free names. -/
def filePathsList (fs : FS) (baseDir requestedFile requestedDir : String) : List String :=
  (if requestedDir ≠ "" then [pathJoin3 baseDir requestedDir requestedFile] else []) ++
  [pathJoin baseDir requestedFile] ++
  (if ¬ hasSlash requestedFile then dirCandidates fs baseDir requestedFile else [])

/-- The candidate loop: first path whose status check passes. -/
def tryPaths (fs : FS) : List String → Option String
  | [] => none
  | p :: rest => if statFile fs p then some p else tryPaths fs rest

/-- Full resolution: the candidate loop followed by the step-4 retry of
the direct join for names that contain a separator. -/
def resolveFile (fs : FS) (baseDir requestedFile requestedDir : String) : Option String :=
  match tryPaths fs (filePathsList fs baseDir requestedFile requestedDir) with
  | some p => some p
  | none =>
    if hasSlash requestedFile then
      let fullPath := pathJoin baseDir requestedFile
      if statFile fs fullPath then some fullPath else none
    else none

/-- Candidate order exactly as the specification words it: hint join,
direct join, one-level-down fallbacks, then the step-4 retry of the
direct join for names containing a separator, scanned first-match-wins. -/
def specCandidates (fs : FS) (baseDir requestedFile requestedDir : String) : List String :=
  (if requestedDir ≠ "" then [pathJoin3 baseDir requestedDir requestedFile] else []) ++
  [pathJoin baseDir requestedFile] ++
  (if ¬ hasSlash requestedFile then dirCandidates fs baseDir requestedFile else []) ++
  (if hasSlash requestedFile then [pathJoin baseDir requestedFile] else [])

/-! ## Content endpoint -/

/-- Outcome of `getFileContent`, one constructor per exit point (each
corresponds to a distinct HTTP status and message in the handler). -/
inductive ContentResult where
  | ok (body : String) (contentType : Option String)
  | notFoundResolve
  | badRequestPath
  | notFoundStat
  | badRequestDir
  | badRequestExt (ext : String)
  | internalRead
deriving DecidableEq, Repr

/-- HTTP status code of a content outcome. -/
def ContentResult.status : ContentResult → Nat
  | .ok _ _ => 200
  | .notFoundResolve => 404
  | .badRequestPath => 400
  | .notFoundStat => 404
  | .badRequestDir => 400
  | .badRequestExt _ => 400
  | .internalRead => 500

/-- Embedding of the `getFileContent` handler body. -/
def getFileContent (fs : FS) (cfg : Config) (baseDir requestedFile requestedDir : String) :
    ContentResult :=
  match resolveFile fs baseDir requestedFile requestedDir with
  | none => .notFoundResolve
  | some filePath =>
    if containsSub ['.', '.'] filePath.data then .badRequestPath
    else
      match fs.stat filePath with
      | none => .notFoundStat
      | some true => .badRequestDir
      | some false =>
        let ext := extLower filePath
        if allowedExt cfg ext then
          match fs.readFile filePath with
          | none => .internalRead
          | some data =>
            .ok data
              (if ext = ".json" then some "application/json"
               else if ext = ".md" then some "text/plain" else none)
        else .badRequestExt ext

/-! ## Directory listing -/

/-- One element of the JSON array `listFiles` returns. -/
structure FileInfo where
  name : String
  path : String
  isDir : Bool
  size : Int
  modTime : Nat
deriving DecidableEq, Repr

/-- Outcome of `listFiles`. -/
inductive ListResult where
  | ok (entries : List FileInfo)
  | notFoundDir
  | badRequestNotDir
  | internalReadDir
deriving DecidableEq, Repr

/-- Root-directory computation of `listFiles` from the `dir` query
parameter. -/
def listRoot (baseDir requestedDir : String) : String :=
  if requestedDir = "" ∨ requestedDir = "." then baseDir
  else if isAbs requestedDir then requestedDir
  else pathJoin baseDir requestedDir

/-- The shallow relevance scan for a subdirectory: does one level of it
hold a non-directory entry with an allowed extension? -/
def dirHasRelevant (fs : FS) (cfg : Config) (path : String) : Bool :=
  match fs.readDir path with
  | none => false
  | some subEntries =>
    subEntries.any fun s => ¬ s.isDir ∧ allowedExt cfg (extLower s.name)

/-- Per-entry filter and record construction of the `listFiles` loop, in
the handler's check order. -/
def includeEntry (fs : FS) (cfg : Config) (rootDir : String) (e : DirEnt) : Option FileInfo :=
  let entryPath := pathJoin rootDir e.name
  if cfg.ignoreHidden ∧ strHasPrefix e.name "." then none
  else if e.isDir ∧ (e.name = "node_modules" ∨ containsSub "node_modules".data entryPath.data ∨
      e.name = "build" ∨ e.name = "dist") then none
  else if ¬ e.infoOk then none
  else if ¬ e.isDir ∧ ¬ allowedExt cfg (extLower e.name) then none
  else if e.isDir ∧ ¬ dirHasRelevant fs cfg entryPath then none
  else
    match pathRel rootDir entryPath with
    | none => none
    | some relPath => some ⟨e.name, relPath, e.isDir, e.size, e.modTime⟩

/-- The `sort.Slice` comparator: directories first, then name order. -/
def fileLess (a b : FileInfo) : Bool :=
  if a.isDir ≠ b.isDir then a.isDir else charListLt a.name.data b.name.data

/-- Total order form of the comparator used for sorting. -/
def fileLe (a b : FileInfo) : Bool :=
  ! fileLess b a

/-- Ordered insertion under a boolean comparison. -/
def insertLe (le : FileInfo → FileInfo → Bool) (x : FileInfo) : List FileInfo → List FileInfo
  | [] => [x]
  | y :: ys => if le x y then x :: y :: ys else y :: insertLe le x ys

/-- Insertion sort; embeds `sort.Slice` (any permutation sorted under
the comparator is an admissible behaviour of the unstable Go sort). -/
def sortLe (le : FileInfo → FileInfo → Bool) : List FileInfo → List FileInfo
  | [] => []
  | x :: xs => insertLe le x (sortLe le xs)

/-- Embedding of the `listFiles` handler body. -/
def listFiles (fs : FS) (cfg : Config) (baseDir requestedDir : String) : ListResult :=
  let rootDir := listRoot baseDir requestedDir
  match fs.stat rootDir with
  | none => .notFoundDir
  | some false => .badRequestNotDir
  | some true =>
    match fs.readDir rootDir with
    | none => .internalReadDir
    | some entries =>
      .ok (sortLe fileLe (entries.filterMap (includeEntry fs cfg rootDir)))

/-! ## JSON values and the JSON-path evaluator -/

/-- Decoded JSON document (the dynamic value produced by
`json.Unmarshal`). -/
inductive Json where
  | null
  | bool (b : Bool)
  | num (n : Int)
  | str (s : String)
  | arr (elems : List Json)
  | obj (fields : List (String × Json))

/-- Go map lookup `m[key]` on a decoded object: a missing key yields the
zero value, which marshals back as JSON `null`. -/
def jsonLookup (fields : List (String × Json)) (key : String) : Json :=
  match fields.find? (fun kv => kv.1 == key) with
  | some kv => kv.2
  | none => .null

/-- Evaluation failures, one constructor per `http.Error` exit of the
query loop. -/
inductive EvalError where
  | notObject (key : String)
  | outOfBounds (idx : Nat)
  | notArray
  | complexPath (rest : String)
deriving DecidableEq, Repr

/-- Last match of a bracketed index inside one newline-free window: the
greedy leading `(.*)` group of the pattern places the key at the latest
position where `[` is followed by one or more digits and `]`. -/
def lastBracket : List Char → Option (List Char × List Char × List Char)
  | [] => none
  | c :: cs =>
    match lastBracket cs with
    | some (k, d, r) => some (c :: k, d, r)
    | none =>
      if c = '[' then
        let ds := cs.takeWhile Char.isDigit
        if ds ≠ [] ∧ (cs.drop ds.length).head? = some ']' then
          some ([], ds, cs.drop (ds.length + 1))
        else none
      else none

/-- First window with a match. -/
def findFirstSome (f : List Char → Option (List Char × List Char × List Char)) :
    List (List Char) → Option (List Char × List Char × List Char)
  | [] => none
  | w :: ws =>
    match f w with
    | some m => some m
    | none => findFirstSome f ws

/-- Match semantics of `regexp.MustCompile((.*)\[(\d+)\](.*))` under
Go's leftmost-first rules: `.` does not cross a newline, so the match
lives in the earliest newline-delimited window holding a valid bracket,
and the greedy groups select the last valid bracket of that window. -/
def regexBracket (s : List Char) : Option (List Char × List Char × List Char) :=
  findFirstSome lastBracket (splitOnChar '\n' s)

/-- The per-segment narrowing loop of `queryJSON` over the segments of
the path split on dots. -/
def evalParts : Json → List (List Char) → Except EvalError Json
  | result, [] => .ok result
  | result, part :: rest =>
    match regexBracket part with
    | some (objKey, ds, restPath) =>
      let step1 : Except EvalError Json :=
        if objKey ≠ [] then
          match result with
          | .obj fields => .ok (jsonLookup fields ⟨objKey⟩)
          | _ => .error (.notObject ⟨objKey⟩)
        else .ok result
      match step1 with
      | .error e => .error e
      | .ok r1 =>
        match r1 with
        | .arr xs =>
          let idx := digitsToNat ds
          if h : idx < xs.length then
            if restPath ≠ [] then .error (.complexPath ⟨restPath⟩)
            else evalParts (xs.get ⟨idx, h⟩) rest
          else .error (.outOfBounds idx)
        | _ => .error .notArray
    | none =>
      match result with
      | .obj fields => evalParts (jsonLookup fields ⟨part⟩) rest
      | _ => .error (.notObject ⟨part⟩)

/-- The JSON-path evaluator of `queryJSON`: split the path on dots and
narrow the document left to right. -/
def evaluate (doc : Json) (path : String) : Except EvalError Json :=
  evalParts doc (splitOnChar '.' path.data)

/-! ## Query endpoint -/

/-- Outcome of `queryJSON`, one constructor per exit point. -/
inductive QueryResult where
  | ok (v : Json)
  | badRequestMissing
  | notFoundResolve
  | badRequestPath
  | notFoundStat
  | badRequestDir
  | badRequestNotJson
  | internalRead
  | badRequestParse
  | badRequestEval (e : EvalError)

/-- HTTP status code of a query outcome. -/
def QueryResult.status : QueryResult → Nat
  | .ok _ => 200
  | .badRequestMissing => 400
  | .notFoundResolve => 404
  | .badRequestPath => 400
  | .notFoundStat => 404
  | .badRequestDir => 400
  | .badRequestNotJson => 400
  | .internalRead => 500
  | .badRequestParse => 400
  | .badRequestEval _ => 400

/-- Embedding of the `queryJSON` handler body; `parse` is the
uninterpreted `json.Unmarshal`. -/
def queryJSON (parse : String → Option Json) (fs : FS)
    (baseDir requestedFile jsonPath requestedDir : String) : QueryResult :=
  if requestedFile = "" ∨ jsonPath = "" then .badRequestMissing
  else
    match resolveFile fs baseDir requestedFile requestedDir with
    | none => .notFoundResolve
    | some filePath =>
      if containsSub ['.', '.'] filePath.data then .badRequestPath
      else
        match fs.stat filePath with
        | none => .notFoundStat
        | some true => .badRequestDir
        | some false =>
          if extLower filePath ≠ ".json" then .badRequestNotJson
          else
            match fs.readFile filePath with
            | none => .internalRead
            | some data =>
              match parse data with
              | none => .badRequestParse
              | some doc =>
                match evaluate doc jsonPath with
                | .error e => .badRequestEval e
                | .ok v => .ok v

/-! ## Resolver lemmas -/

theorem tryPaths_eq_find? (fs : FS) : ∀ l : List String, tryPaths fs l = l.find? (statFile fs)
  | [] => rfl
  | p :: rest => by
    by_cases h : statFile fs p = true
    · simp [tryPaths, List.find?, h]
    · simp only [Bool.not_eq_true] at h
      simp [tryPaths, List.find?, h, tryPaths_eq_find? fs rest]

theorem resolveFile_stat {fs : FS} {baseDir requestedFile requestedDir p : String}
    (h : resolveFile fs baseDir requestedFile requestedDir = some p) :
    statFile fs p = true := by
  unfold resolveFile at h
  rcases htry : tryPaths fs (filePathsList fs baseDir requestedFile requestedDir) with _ | q
  · rw [htry] at h
    by_cases hs : hasSlash requestedFile = true
    · simp only [hs, if_true] at h
      by_cases hst : statFile fs (pathJoin baseDir requestedFile) = true
      · simp only [hst, if_true, Option.some.injEq] at h
        exact h ▸ hst
      · simp only [Bool.not_eq_true] at hst
        simp [hst] at h
    · simp only [Bool.not_eq_true] at hs
      simp [hs] at h
  · rw [htry] at h
    simp only [Option.some.injEq] at h
    subst h
    rw [tryPaths_eq_find?] at htry
    exact List.find?_some htry

theorem mem_filePathsList_direct (fs : FS) (baseDir requestedFile requestedDir : String) :
    pathJoin baseDir requestedFile ∈ filePathsList fs baseDir requestedFile requestedDir := by
  unfold filePathsList
  simp

theorem resolveFile_eq_tryPaths (fs : FS) (baseDir requestedFile requestedDir : String) :
    resolveFile fs baseDir requestedFile requestedDir =
      tryPaths fs (filePathsList fs baseDir requestedFile requestedDir) := by
  unfold resolveFile
  rcases htry : tryPaths fs (filePathsList fs baseDir requestedFile requestedDir) with _ | q
  · have hnone : ∀ x ∈ filePathsList fs baseDir requestedFile requestedDir,
        ¬ statFile fs x = true := by
      rw [tryPaths_eq_find?] at htry
      exact List.find?_eq_none.mp htry
    have hfalse : ¬ statFile fs (pathJoin baseDir requestedFile) = true :=
      hnone _ (mem_filePathsList_direct fs baseDir requestedFile requestedDir)
    simp only [Bool.not_eq_true] at hfalse
    by_cases hs : hasSlash requestedFile = true <;> simp [hs, hfalse]
  · rfl

/-- C10: the fourth resolution step retries the direct join, which is
always already present as a candidate of the loop, so the resolver with
the retry is extensionally the resolver without it. -/
theorem step4_redundant (fs : FS) (baseDir requestedFile requestedDir : String) :
    pathJoin baseDir requestedFile ∈ filePathsList fs baseDir requestedFile requestedDir ∧
    resolveFile fs baseDir requestedFile requestedDir =
      tryPaths fs (filePathsList fs baseDir requestedFile requestedDir) :=
  ⟨mem_filePathsList_direct fs baseDir requestedFile requestedDir,
    resolveFile_eq_tryPaths fs baseDir requestedFile requestedDir⟩

theorem specCandidates_eq (fs : FS) (baseDir requestedFile requestedDir : String) :
    specCandidates fs baseDir requestedFile requestedDir =
      filePathsList fs baseDir requestedFile requestedDir ++
        (if hasSlash requestedFile then [pathJoin baseDir requestedFile] else []) := by
  unfold specCandidates filePathsList
  simp [List.append_assoc]

theorem resolveFile_eq_spec_find? (fs : FS) (baseDir requestedFile requestedDir : String) :
    resolveFile fs baseDir requestedFile requestedDir =
      (specCandidates fs baseDir requestedFile requestedDir).find? (statFile fs) := by
  rw [specCandidates_eq, List.find?_append, resolveFile_eq_tryPaths fs baseDir requestedFile requestedDir,
    tryPaths_eq_find?]
  rcases hfind : (filePathsList fs baseDir requestedFile requestedDir).find? (statFile fs) with _ | q
  · have hfalse : ¬ statFile fs (pathJoin baseDir requestedFile) = true :=
      List.find?_eq_none.mp hfind _ (mem_filePathsList_direct fs baseDir requestedFile requestedDir)
    simp only [Bool.not_eq_true] at hfalse
    by_cases hs : hasSlash requestedFile = true <;> simp [hs, List.find?, hfalse, Option.or]
  · simp [Option.or]

/-- C1: for content and query requests, resolution scans exactly the
specification's ordered candidate list (hint join, direct join,
one-level-down fallbacks, separator retry), returns the first candidate
that exists and is not a directory, and the handlers answer `NotFound`
exactly when no candidate passes the status check. -/
theorem candidate_resolution (fs : FS) (cfg : Config) (parse : String → Option Json)
    (baseDir requestedFile jsonPath requestedDir : String) :
    resolveFile fs baseDir requestedFile requestedDir =
      (specCandidates fs baseDir requestedFile requestedDir).find? (statFile fs) ∧
    (getFileContent fs cfg baseDir requestedFile requestedDir = ContentResult.notFoundResolve ↔
      (specCandidates fs baseDir requestedFile requestedDir).find? (statFile fs) = none) ∧
    (requestedFile ≠ "" → jsonPath ≠ "" →
      (queryJSON parse fs baseDir requestedFile jsonPath requestedDir = QueryResult.notFoundResolve ↔
        (specCandidates fs baseDir requestedFile requestedDir).find? (statFile fs) = none)) := by
  have hres := resolveFile_eq_spec_find? fs baseDir requestedFile requestedDir
  refine ⟨hres, ?_, ?_⟩
  · unfold getFileContent
    rw [hres]
    rcases (specCandidates fs baseDir requestedFile requestedDir).find? (statFile fs) with _ | p
    · simp
    · by_cases hdd : containsSub ['.', '.'] p.data = true
      · simp [hdd]
      · simp only [Bool.not_eq_true] at hdd
        rcases hst : fs.stat p with _ | b
        · simp [hdd, hst]
        · rcases b
          · by_cases hext : allowedExt cfg (extLower p) = true
            · rcases hrf : fs.readFile p with _ | data <;> simp [hdd, hst, hext, hrf]
            · simp only [Bool.not_eq_true] at hext
              simp [hdd, hst, hext]
          · simp [hdd, hst]
  · intro hfile hpath
    unfold queryJSON
    rw [hres]
    simp only [hfile, hpath, or_self, if_false]
    rcases (specCandidates fs baseDir requestedFile requestedDir).find? (statFile fs) with _ | p
    · simp
    · by_cases hdd : containsSub ['.', '.'] p.data = true
      · simp [hdd]
      · simp only [Bool.not_eq_true] at hdd
        rcases hst : fs.stat p with _ | b
        · simp [hdd, hst]
        · rcases b
          · by_cases hext : extLower p = ".json"
            · rcases hrf : fs.readFile p with _ | data
              · simp [hdd, hst, hext, hrf]
              · rcases hp : parse data with _ | doc
                · simp [hdd, hst, hext, hrf, hp]
                · rcases hev : evaluate doc jsonPath with e | v <;>
                    simp [hdd, hst, hext, hrf, hp, hev]
            · simp [hdd, hst, hext]
          · simp [hdd, hst]

/-- Concrete filesystem for the resolver witnesses: base `/w` with one
subdirectory `docs` holding `notes.md`. -/
def c1fs : FS where
  stat := fun p =>
    if p = "/w" then some true
    else if p = "/w/docs" then some true
    else if p = "/w/docs/notes.md" then some false
    else none
  readDir := fun p =>
    if p = "/w" then some [⟨"docs", true, 0, 0, true⟩]
    else if p = "/w/docs" then some [⟨"notes.md", false, 3, 5, true⟩]
    else none
  readFile := fun _ => some "body"

/-- C1 witness: on a one-file filesystem, a name that only the
one-level-down fallback can find resolves there, and an absent name
makes the query handler answer `NotFound`. -/
theorem candidate_resolution_witness :
    (resolveFile c1fs "/w" "notes.md" "" =
      (specCandidates c1fs "/w" "notes.md" "").find? (statFile c1fs)) ∧
    (queryJSON (fun _ => none) c1fs "/w" "absent.md" "x" "" = QueryResult.notFoundResolve) := by
  constructor
  · exact (candidate_resolution c1fs defaultConfig (fun _ => none) "/w" "notes.md" "x" "").1
  · exact ((candidate_resolution c1fs defaultConfig (fun _ => none) "/w" "absent.md" "x" "").2.2
      (by decide) (by decide)).mpr (by decide)

/-! ## Security-check and extension-check claims -/

/-- C5: once a candidate has resolved, both handlers reject with the
`Invalid file path` BadRequest exactly when the resolved path string
contains the substring `..` — a purely textual test on the constructed
path, applied after resolution. -/
theorem traversal_check_textual (fs : FS) (cfg : Config) (parse : String → Option Json)
    (baseDir requestedFile jsonPath requestedDir p : String)
    (hres : resolveFile fs baseDir requestedFile requestedDir = some p) :
    (getFileContent fs cfg baseDir requestedFile requestedDir = ContentResult.badRequestPath ↔
      containsSub ['.', '.'] p.data = true) ∧
    (requestedFile ≠ "" → jsonPath ≠ "" →
      (queryJSON parse fs baseDir requestedFile jsonPath requestedDir = QueryResult.badRequestPath ↔
        containsSub ['.', '.'] p.data = true)) := by
  have hstat : fs.stat p = some false := by
    have := resolveFile_stat hres
    simpa [statFile] using this
  constructor
  · unfold getFileContent
    rw [hres]
    by_cases hdd : containsSub ['.', '.'] p.data = true
    · simp [hdd]
    · simp only [Bool.not_eq_true] at hdd
      by_cases hext : allowedExt cfg (extLower p) = true
      · rcases hrf : fs.readFile p with _ | data <;> simp [hdd, hstat, hext, hrf]
      · simp only [Bool.not_eq_true] at hext
        simp [hdd, hstat, hext]
  · intro hfile hpath
    unfold queryJSON
    rw [hres]
    simp only [hfile, hpath, or_self, if_false]
    by_cases hdd : containsSub ['.', '.'] p.data = true
    · simp [hdd]
    · simp only [Bool.not_eq_true] at hdd
      by_cases hext : extLower p = ".json"
      · rcases hrf : fs.readFile p with _ | data
        · simp [hdd, hstat, hext, hrf]
        · rcases hp : parse data with _ | doc
          · simp [hdd, hstat, hext, hrf, hp]
          · rcases hev : evaluate doc jsonPath with e | v <;> simp [hdd, hstat, hext, hrf, hp, hev]
      · simp [hdd, hstat, hext]

/-- Concrete filesystem for the traversal witness: the regular file
`a..b.md` has a resolved path that contains `..` without leaving the
root. -/
def c5fs : FS where
  stat := fun p =>
    if p = "/w" then some true
    else if p = "/w/a..b.md" then some false
    else none
  readDir := fun p => if p = "/w" then some [⟨"a..b.md", false, 1, 1, true⟩] else none
  readFile := fun _ => some "body"

/-- C5 witness: `a..b.md` resolves, its path contains `..` textually,
and both handlers reject it with the invalid-path BadRequest. -/
theorem traversal_check_textual_witness :
    getFileContent c5fs defaultConfig "/w" "a..b.md" "" = ContentResult.badRequestPath ∧
    queryJSON (fun _ => none) c5fs "/w" "a..b.md" "x" "" = QueryResult.badRequestPath := by
  have h := traversal_check_textual c5fs defaultConfig (fun _ => none) "/w" "a..b.md" "x" ""
    "/w/a..b.md" (by decide)
  exact ⟨h.1.mpr (by decide), (h.2 (by decide) (by decide)).mpr (by decide)⟩

/-- C8: a query whose file resolves to an existing regular file with a
lower-cased extension other than `.json` answers the not-JSON
BadRequest for every JSON-path value and every parser behaviour — the
path expression is never evaluated. -/
theorem query_non_json_rejected (parse : String → Option Json) (fs : FS)
    (baseDir requestedFile jsonPath requestedDir p : String)
    (hfile : requestedFile ≠ "") (hpath : jsonPath ≠ "")
    (hres : resolveFile fs baseDir requestedFile requestedDir = some p)
    (hdd : containsSub ['.', '.'] p.data = false)
    (hext : extLower p ≠ ".json") :
    queryJSON parse fs baseDir requestedFile jsonPath requestedDir =
      QueryResult.badRequestNotJson := by
  have hstat : fs.stat p = some false := by
    have := resolveFile_stat hres
    simpa [statFile] using this
  unfold queryJSON
  rw [hres]
  simp only [hfile, hpath, or_self, if_false]
  simp [hdd, hstat, hext]

/-- Concrete filesystem for the non-JSON query witness: a single
Markdown file. -/
def c8fs : FS where
  stat := fun p =>
    if p = "/w" then some true
    else if p = "/w/notes.md" then some false
    else none
  readDir := fun p => if p = "/w" then some [⟨"notes.md", false, 1, 1, true⟩] else none
  readFile := fun _ => some "body"

/-- C8 witness: querying the Markdown file is rejected as not JSON. -/
theorem query_non_json_rejected_witness :
    queryJSON (fun _ => some Json.null) c8fs "/w" "notes.md" "a.b[0]" "" =
      QueryResult.badRequestNotJson :=
  query_non_json_rejected (fun _ => some Json.null) c8fs "/w" "notes.md" "a.b[0]" ""
    "/w/notes.md" (by decide) (by decide) (by decide) (by decide) (by decide)

/-! ## Bracket-match lemmas for the evaluator -/

theorem splitOnChar_not_mem {sep : Char} : ∀ {l : List Char}, sep ∉ l → splitOnChar sep l = [l]
  | [], _ => rfl
  | c :: cs, h => by
    have hc : ¬ c = sep := fun he => h (he ▸ List.mem_cons_self c cs)
    have hcs : sep ∉ cs := fun hm => h (List.mem_cons_of_mem c hm)
    simp [splitOnChar, hc, splitOnChar_not_mem hcs]

theorem lastBracket_none_cons {c : Char} {l : List Char} (hc : c ≠ '[')
    (hl : lastBracket l = none) : lastBracket (c :: l) = none := by
  simp [lastBracket, hl, hc]

theorem lastBracket_none_append {pre : List Char} {l : List Char}
    (hpre : ∀ c ∈ pre, c ≠ '[') (hl : lastBracket l = none) :
    lastBracket (pre ++ l) = none := by
  induction pre with
  | nil => simpa using hl
  | cons c cs ih =>
    have := ih (fun x hx => hpre x (List.mem_cons_of_mem c hx))
    exact lastBracket_none_cons (hpre c (List.mem_cons_self c cs)) this

theorem takeWhile_append_stop {p : Char → Bool} {x : Char} {r : List Char} :
    ∀ {ds : List Char}, (∀ c ∈ ds, p c = true) → p x = false →
      (ds ++ x :: r).takeWhile p = ds
  | [], _, hx => by simp [List.takeWhile, hx]
  | d :: ds, hds, hx => by
    have hd : p d = true := hds d (List.mem_cons_self d ds)
    have : (ds ++ x :: r).takeWhile p = ds :=
      takeWhile_append_stop (fun c hc => hds c (List.mem_cons_of_mem d hc)) hx
    simp [List.takeWhile, hd, this]

theorem isDigit_ne_lbracket {c : Char} (h : c.isDigit = true) : c ≠ '[' := by
  intro he
  rw [he] at h
  exact absurd h (by decide)

theorem isDigit_ne_newline {c : Char} (h : c.isDigit = true) : c ≠ '\n' := by
  intro he
  rw [he] at h
  exact absurd h (by decide)

theorem isDigit_ne_dot {c : Char} (h : c.isDigit = true) : c ≠ '.' := by
  intro he
  rw [he] at h
  exact absurd h (by decide)

theorem lastBracket_construct :
    ∀ (key : List Char) {ds rest : List Char}, ds ≠ [] → (∀ c ∈ ds, c.isDigit = true) →
      lastBracket rest = none →
      lastBracket (key ++ '[' :: (ds ++ ']' :: rest)) = some (key, ds, rest)
  | [], ds, rest, hne, hds, hrest => by
    have htail : lastBracket (ds ++ ']' :: rest) = none := by
      refine lastBracket_none_append (fun c hc => isDigit_ne_lbracket (hds c hc)) ?_
      exact lastBracket_none_cons (by decide) hrest
    have htake : (ds ++ ']' :: rest).takeWhile Char.isDigit = ds :=
      takeWhile_append_stop hds (by decide)
    have hdrop : (ds ++ ']' :: rest).drop ds.length = ']' :: rest := by
      simpa using List.drop_left ds (']' :: rest)
    have hdrop1 : (ds ++ ']' :: rest).drop (ds.length + 1) = rest := by
      have : ds ++ ']' :: rest = (ds ++ [']']) ++ rest := by simp
      rw [this]
      simpa [List.length_append] using List.drop_left (ds ++ [']']) rest
    simp [lastBracket, htail, htake, hdrop, hdrop1, hne]
  | k :: ks, ds, rest, hne, hds, hrest => by
    have ih := lastBracket_construct ks hne hds hrest
    simp [lastBracket, ih]

theorem regexBracket_construct (key ds rest : List Char)
    (hkeynl : '\n' ∉ key) (hne : ds ≠ []) (hds : ∀ c ∈ ds, c.isDigit = true)
    (hrestnl : '\n' ∉ rest) (hrest : lastBracket rest = none) :
    regexBracket (key ++ '[' :: (ds ++ ']' :: rest)) = some (key, ds, rest) := by
  have hnl : '\n' ∉ key ++ '[' :: (ds ++ ']' :: rest) := by
    intro hmem
    rcases List.mem_append.mp hmem with h | h
    · exact hkeynl h
    · rcases List.mem_cons.mp h with h | h
      · exact absurd h.symm (by decide)
      · rcases List.mem_append.mp h with h | h
        · exact absurd rfl (isDigit_ne_newline (hds _ h))
        · rcases List.mem_cons.mp h with h | h
          · exact absurd h.symm (by decide)
          · exact hrestnl h
  unfold regexBracket
  rw [splitOnChar_not_mem hnl]
  simp [findFirstSome, lastBracket_construct key hne hds hrest]

/-- One evaluator step on a keyed indexed segment `key[ds]rest`,
covering every branch the handler can take after the regex match. -/
theorem evalParts_indexed_seg (fields : List (String × Json)) (key ds rest : List Char)
    (tail : List (List Char)) (hkey : key ≠ []) (hkeynl : '\n' ∉ key)
    (hne : ds ≠ []) (hds : ∀ c ∈ ds, c.isDigit = true)
    (hrestnl : '\n' ∉ rest) (hrest : lastBracket rest = none) :
    evalParts (Json.obj fields) ((key ++ '[' :: (ds ++ ']' :: rest)) :: tail) =
      match jsonLookup fields ⟨key⟩ with
      | Json.arr xs =>
        if h : digitsToNat ds < xs.length then
          if rest ≠ [] then Except.error (EvalError.complexPath ⟨rest⟩)
          else evalParts (xs.get ⟨digitsToNat ds, h⟩) tail
        else Except.error (EvalError.outOfBounds (digitsToNat ds))
      | _ => Except.error EvalError.notArray := by
  rw [evalParts, regexBracket_construct key ds rest hkeynl hne hds hrestnl hrest]
  simp only [hkey, ne_eq, not_false_iff, if_true]

/-- One evaluator step on a bare indexed segment `[ds]rest` (empty
key): the running result itself must be the array. -/
theorem evalParts_indexed_seg_nokey (v : Json) (ds rest : List Char)
    (tail : List (List Char)) (hne : ds ≠ []) (hds : ∀ c ∈ ds, c.isDigit = true)
    (hrestnl : '\n' ∉ rest) (hrest : lastBracket rest = none) :
    evalParts v (('[' :: (ds ++ ']' :: rest)) :: tail) =
      match v with
      | Json.arr xs =>
        if h : digitsToNat ds < xs.length then
          if rest ≠ [] then Except.error (EvalError.complexPath ⟨rest⟩)
          else evalParts (xs.get ⟨digitsToNat ds, h⟩) tail
        else Except.error (EvalError.outOfBounds (digitsToNat ds))
      | _ => Except.error EvalError.notArray := by
  have hregex := regexBracket_construct [] ds rest (by simp) hne hds hrestnl hrest
  rw [List.nil_append] at hregex
  rcases v with _ | b | n | s | xs | kvs <;>
    simp only [evalParts, hregex] <;> rfl

/-! ## Evaluator claims -/

/-- C2 counterexample: on the object `{"a": 1}` the two-segment path
`x.y` does not return null — after the missing key `x` yields null, the
next segment `y` is evaluated against that null and fails with the
not-an-object BadRequest. -/
theorem missing_key_null_counterexample :
    evaluate (Json.obj [("a", Json.num 1)]) "x.y" =
      Except.error (EvalError.notObject "y") ∧
    evaluate (Json.obj [("a", Json.num 1)]) "x.y" ≠ Except.ok Json.null :=
  ⟨rfl, fun h => Except.noConfusion h⟩

/-- C2 amended: a missing key on a plain segment silently narrows the
running result to null without error at that segment (so a path ending
in the missing key returns null), but any further segment is then
evaluated against null and fails with the not-an-object BadRequest; in
particular `x.y` on `{"a": 1}` errors rather than returning null. -/
theorem missing_key_silent_null :
    (∀ (fields : List (String × Json)) (part : List Char) (rest : List (List Char)),
      regexBracket part = none →
      fields.find? (fun kv => kv.1 == (⟨part⟩ : String)) = none →
      evalParts (Json.obj fields) (part :: rest) = evalParts Json.null rest) ∧
    evaluate (Json.obj [("a", Json.num 1)]) "x" = Except.ok Json.null ∧
    evaluate (Json.obj [("a", Json.num 1)]) "x.y" =
      Except.error (EvalError.notObject "y") := by
  refine ⟨?_, rfl, rfl⟩
  intro fields part rest hregex hfind
  rw [evalParts, hregex]
  simp [jsonLookup, hfind]

/-- C2 witness: instantiating the silent-null step on `{"a": 1}` with
missing key `x` followed by segment `y`. -/
theorem missing_key_silent_null_witness :
    evalParts (Json.obj [("a", Json.num 1)]) [['x'], ['y']] = evalParts Json.null [['y']] :=
  missing_key_silent_null.1 [("a", Json.num 1)] ['x'] [['y']] rfl rfl

/-- Document of the specification's indexed-segment examples. -/
def c3doc : Json :=
  Json.obj [("a", Json.obj [("b", Json.arr [Json.num 1, Json.num 2, Json.num 3])])]

/-- C3 counterexample: the out-of-bounds rule does not apply to the
written index.  For a decimal index above the signed 64-bit range the
handler discards the `Sscanf` error, the index keeps its initial value
0, and element 0 is returned instead of the out-of-bounds BadRequest
the claim asserts for every index at or beyond the array length. -/
theorem overflow_index_counterexample :
    evaluate c3doc "a.b[99999999999999999999]" = Except.ok (Json.num 1) ∧
    ∀ e : EvalError, evaluate c3doc "a.b[99999999999999999999]" ≠ Except.error e :=
  ⟨rfl, fun _ h => Except.noConfusion h⟩

/-- C3 amended: an indexed segment `key[idx]` first performs the object
lookup for a non-empty key, then requires the running result to be an
array with the effective index — the value `Sscanf` leaves, which is
the written decimal when it fits in a signed 64-bit int and 0 when the
parse overflows with the error discarded — in bounds, narrowing to the
element at that effective index; otherwise it fails with the
out-of-bounds or not-an-array BadRequest.  In particular `a.b[1]` on
the example document yields `2`, `a.b[5]` is out of bounds, and
`a.b[99999999999999999999]` yields element 0 (the value 1) because the
overflowed index reads as 0. -/
theorem indexed_segment_semantics :
    (∀ (fields : List (String × Json)) (key : String) (ds : List Char)
        (tail : List (List Char)),
      key ≠ "" → '\n' ∉ key.data → ds ≠ [] → (∀ c ∈ ds, c.isDigit = true) →
      evalParts (Json.obj fields) ((key.data ++ '[' :: (ds ++ [']'])) :: tail) =
        match jsonLookup fields key with
        | Json.arr xs =>
          if h : digitsToNat ds < xs.length then evalParts (xs.get ⟨digitsToNat ds, h⟩) tail
          else Except.error (EvalError.outOfBounds (digitsToNat ds))
        | _ => Except.error EvalError.notArray) ∧
    (∀ (v : Json) (ds : List Char) (tail : List (List Char)),
      ds ≠ [] → (∀ c ∈ ds, c.isDigit = true) →
      evalParts v (('[' :: (ds ++ [']'])) :: tail) =
        match v with
        | Json.arr xs =>
          if h : digitsToNat ds < xs.length then evalParts (xs.get ⟨digitsToNat ds, h⟩) tail
          else Except.error (EvalError.outOfBounds (digitsToNat ds))
        | _ => Except.error EvalError.notArray) ∧
    evaluate c3doc "a.b[1]" = Except.ok (Json.num 2) ∧
    evaluate c3doc "a.b[5]" = Except.error (EvalError.outOfBounds 5) ∧
    evaluate c3doc "a.b[99999999999999999999]" = Except.ok (Json.num 1) := by
  refine ⟨?_, ?_, rfl, rfl, rfl⟩
  · intro fields key ds tail hkey hnl hne hds
    have hkd : key.data ≠ [] := fun h => hkey (String.ext h)
    have h := evalParts_indexed_seg fields key.data ds [] tail hkd hnl hne hds (by simp) rfl
    simpa using h
  · intro v ds tail hne hds
    have h := evalParts_indexed_seg_nokey v ds [] tail hne hds (by simp) rfl
    simpa using h

/-- C3 witness: a keyed indexed segment on a one-element array. -/
theorem indexed_segment_semantics_witness :
    evalParts (Json.obj [("k", Json.arr [Json.num 7])]) [['k', '[', '0', ']']] =
      Except.ok (Json.num 7) := by
  have h := indexed_segment_semantics.1 [("k", Json.arr [Json.num 7])] "k" ['0'] []
    (by decide) (by decide) (by decide) (by decide)
  exact h

/-- C4 counterexample: the chained-bracket segment `key[0][1]` is not
rejected as a complex array path — the greedy match reads the key as
the literal string `key[0]`, so on an object holding that key the
evaluation succeeds. -/
theorem chained_bracket_counterexample :
    evaluate (Json.obj [("key[0]", Json.arr [Json.num 10, Json.num 20])]) "key[0][1]" =
      Except.ok (Json.num 20) := rfl

/-- C4 amended: when the greedy bracket match of a segment leaves a
non-empty remainder, evaluation of that segment always fails, and the
error is determined exactly by the state after the optional key lookup:
the complex-array-paths BadRequest precisely when the lookup produced an
array whose length exceeds the effective index (the `Sscanf`-parsed
value: the written decimal when it fits in a signed 64-bit int, and 0
when the parse overflows with the error discarded), and otherwise the
not-an-object, not-an-array or out-of-bounds BadRequest for that
effective index.  Chained brackets such as `key[0][1]` reparse greedily
with an empty remainder and are not rejected; an overflowed index such
as `k[99999999999999999999]x` on `{"k": [7]}` reads as 0, lands in
bounds, and fires the complex-paths error although the written index is
far beyond the array. -/
theorem bracket_remainder_semantics :
    (∀ (part k ds r : List Char) (doc : Json) (tail : List (List Char)),
      regexBracket part = some (k, ds, r) → r ≠ [] →
      evalParts doc (part :: tail) =
        Except.error
          (match
            (if k = [] then some doc
             else
               match doc with
               | Json.obj fields => some (jsonLookup fields ⟨k⟩)
               | _ => none) with
          | none => EvalError.notObject ⟨k⟩
          | some r1 =>
            match r1 with
            | Json.arr xs =>
              if digitsToNat ds < xs.length then EvalError.complexPath ⟨r⟩
              else EvalError.outOfBounds (digitsToNat ds)
            | _ => EvalError.notArray)) ∧
    evaluate (Json.obj [("k", Json.arr [Json.num 7])]) "k[99999999999999999999]x" =
      Except.error (EvalError.complexPath "x") := by
  refine ⟨?_, rfl⟩
  intro part k ds r doc tail hregex hr
  rcases doc with _ | b | n | s | xs | kvs <;>
    simp only [evalParts, hregex] <;>
    by_cases hk : k = [] <;>
    simp only [hk, ne_eq, not_true_eq_false, if_false, not_false_iff, if_true, if_pos] <;>
    first
      | rfl
      | (by_cases hidx : digitsToNat ds < xs.length
         · rw [dif_pos hidx, if_pos hr, if_pos hidx]
         · rw [dif_neg hidx, if_neg hidx])
      | (rcases hjl : jsonLookup kvs ⟨k⟩ with _ | b1 | n1 | s1 | xs1 | kvs1 <;>
          simp only [hjl] <;>
          first
            | rfl
            | (by_cases hidx : digitsToNat ds < xs1.length
               · rw [dif_pos hidx, if_pos hr, if_pos hidx]
               · rw [dif_neg hidx, if_neg hidx]))

/-- C4 witness: the segment `k[0]x` on `{"k": [7]}` — the index access
succeeds and the trailing remainder `x` triggers the complex-path
BadRequest, matching the characterization. -/
theorem bracket_remainder_semantics_witness :
    evalParts (Json.obj [("k", Json.arr [Json.num 7])]) [['k', '[', '0', ']', 'x']] =
      Except.error (EvalError.complexPath "x") := by
  have h := bracket_remainder_semantics.1 ['k', '[', '0', ']', 'x'] ['k'] ['0'] ['x']
    (Json.obj [("k", Json.arr [Json.num 7])]) [] rfl (by decide)
  exact h

/-! ## Sorting lemmas -/

theorem mem_insertLe {le : FileInfo → FileInfo → Bool} {x z : FileInfo} :
    ∀ {l : List FileInfo}, z ∈ insertLe le x l ↔ z = x ∨ z ∈ l
  | [] => by simp [insertLe]
  | y :: ys => by
    by_cases h : le x y = true
    · rw [insertLe, if_pos h]
      simp [List.mem_cons]
    · rw [insertLe, if_neg h]
      simp only [List.mem_cons, mem_insertLe (l := ys)]
      tauto

theorem mem_sortLe {le : FileInfo → FileInfo → Bool} {z : FileInfo} :
    ∀ {l : List FileInfo}, z ∈ sortLe le l ↔ z ∈ l
  | [] => Iff.rfl
  | y :: ys => by
    simp only [sortLe, mem_insertLe, List.mem_cons, mem_sortLe (l := ys)]

theorem pairwise_insertLe {le : FileInfo → FileInfo → Bool}
    (htot : ∀ a b, le a b = true ∨ le b a = true)
    (htrans : ∀ a b c, le a b = true → le b c = true → le a c = true) (x : FileInfo) :
    ∀ {l : List FileInfo}, l.Pairwise (fun a b => le a b = true) →
      (insertLe le x l).Pairwise (fun a b => le a b = true)
  | [], _ => by simp [insertLe]
  | y :: ys, hl => by
    rcases List.pairwise_cons.mp hl with ⟨hy, hys⟩
    by_cases h : le x y = true
    · rw [insertLe, if_pos h]
      refine List.pairwise_cons.mpr ⟨?_, hl⟩
      intro b hb
      rcases List.mem_cons.mp hb with rfl | hb
      · exact h
      · exact htrans x y b h (hy b hb)
    · rw [insertLe, if_neg h]
      refine List.pairwise_cons.mpr ⟨?_, pairwise_insertLe htot htrans x hys⟩
      intro b hb
      rcases mem_insertLe.mp hb with rfl | hb
      · rcases htot b y with hby | hyb
        · exact absurd hby h
        · exact hyb
      · exact hy b hb

theorem pairwise_sortLe {le : FileInfo → FileInfo → Bool}
    (htot : ∀ a b, le a b = true ∨ le b a = true)
    (htrans : ∀ a b c, le a b = true → le b c = true → le a c = true) :
    ∀ l : List FileInfo, (sortLe le l).Pairwise (fun a b => le a b = true)
  | [] => List.Pairwise.nil
  | y :: ys => pairwise_insertLe htot htrans y (pairwise_sortLe htot htrans ys)

/-! ## Comparator lemmas -/

theorem charListLt_asymm : ∀ (a b : List Char), charListLt a b = true → charListLt b a = false
  | [], [], h => by simp [charListLt] at h
  | [], _ :: _, _ => by simp [charListLt]
  | _ :: _, [], h => by simp [charListLt] at h
  | a :: as, b :: bs, h => by
    rw [charListLt] at h ⊢
    by_cases hab : a < b
    · rw [if_neg (lt_asymm hab), if_pos hab]
    · by_cases hba : b < a
      · rw [if_neg hab, if_pos hba] at h
        exact absurd h (by simp)
      · rw [if_neg hab, if_neg hba] at h
        rw [if_neg hba, if_neg hab]
        exact charListLt_asymm as bs h

theorem charListLt_negtrans : ∀ (a b c : List Char),
    charListLt b a = false → charListLt c b = false → charListLt c a = false
  | [], _, c, _, _ => by cases c <;> rfl
  | _ :: _, [], _, h1, _ => by simp [charListLt] at h1
  | _ :: _, _ :: _, [], _, h2 => by simp [charListLt] at h2
  | a :: as, b :: bs, c :: cs, h1, h2 => by
    rw [charListLt] at h1 h2 ⊢
    by_cases hba : b < a
    · rw [if_pos hba] at h1
      exact absurd h1 (by simp)
    · rw [if_neg hba] at h1
      by_cases hcb : c < b
      · rw [if_pos hcb] at h2
        exact absurd h2 (by simp)
      · rw [if_neg hcb] at h2
        have hab : a ≤ b := not_lt.mp hba
        have hbc : b ≤ c := not_lt.mp hcb
        have hnca : ¬ c < a := not_lt.mpr (hab.trans hbc)
        rw [if_neg hnca]
        by_cases hac : a < c
        · rw [if_pos hac]
        · rw [if_neg hac]
          have hca : c ≤ a := not_lt.mp hac
          have heqab : a = b := le_antisymm hab (hbc.trans hca)
          have heqbc : b = c := le_antisymm hbc (hca.trans hab)
          subst heqab
          subst heqbc
          rw [if_neg (lt_irrefl a)] at h1 h2
          exact charListLt_negtrans as bs cs h1 h2

theorem charListLt_conn : ∀ (a b : List Char),
    charListLt a b = false → charListLt b a = false → a = b
  | [], [], _, _ => rfl
  | [], _ :: _, h1, _ => by simp [charListLt] at h1
  | _ :: _, [], _, h2 => by simp [charListLt] at h2
  | a :: as, b :: bs, h1, h2 => by
    rw [charListLt] at h1 h2
    by_cases hab : a < b
    · rw [if_pos hab] at h1
      exact absurd h1 (by simp)
    · rw [if_neg hab] at h1
      by_cases hba : b < a
      · rw [if_pos hba] at h2
        exact absurd h2 (by simp)
      · rw [if_neg hba] at h1
        rw [if_neg hba, if_neg hab] at h2
        have heq : a = b := le_antisymm (not_lt.mp hba) (not_lt.mp hab)
        have hrec : as = bs := charListLt_conn as bs h1 h2
        rw [heq, hrec]

theorem fileLess_asymm (a b : FileInfo) (h : fileLess a b = true) : fileLess b a = false := by
  rcases ha : a.isDir <;> rcases hb : b.isDir <;>
    simp only [fileLess, ha, hb] at h ⊢ <;>
    first
      | exact charListLt_asymm _ _ (by simpa using h)
      | simp at h ⊢

theorem fileLe_total : ∀ a b : FileInfo, fileLe a b = true ∨ fileLe b a = true := by
  intro a b
  rw [fileLe, fileLe]
  rcases hba : fileLess b a
  · left
    rfl
  · right
    rw [fileLess_asymm b a hba]
    rfl

theorem fileLe_trans : ∀ a b c : FileInfo,
    fileLe a b = true → fileLe b c = true → fileLe a c = true := by
  intro a b c h1 h2
  rw [fileLe, Bool.not_eq_true'] at h1 h2 ⊢
  rcases ha : a.isDir <;> rcases hb : b.isDir <;> rcases hc : c.isDir <;>
    simp only [fileLess, ha, hb, hc] at h1 h2 ⊢ <;>
    first
      | exact charListLt_negtrans _ _ _ (by simpa using h1) (by simpa using h2)
      | simp at h1 h2 ⊢

theorem fileLe_imp (a b : FileInfo) (h : fileLe a b = true) :
    (a.isDir = true ∧ b.isDir = false) ∨
      (a.isDir = b.isDir ∧ (charListLt a.name.data b.name.data = true ∨ a.name = b.name)) := by
  rw [fileLe, Bool.not_eq_true'] at h
  rcases ha : a.isDir <;> rcases hb : b.isDir <;>
    simp only [fileLess, ha, hb] at h <;> simp [ha, hb] <;>
    first
      | (rcases hlt : charListLt a.name.data b.name.data
         · exact Or.inr (String.ext (charListLt_conn _ _ hlt (by simpa using h)))
         · exact Or.inl rfl)
      | simp at h

/-! ## Listing-order claim -/

/-- Concrete filesystem for the listing-order example: four regular
files, one hidden. -/
def c7fs : FS where
  stat := fun p => if p = "/w" then some true else none
  readDir := fun p =>
    if p = "/w" then
      some [⟨".hidden.md", false, 1, 1, true⟩, ⟨"readme.md", false, 2, 2, true⟩,
        ⟨"Z.json", false, 3, 3, true⟩, ⟨"a.md", false, 4, 4, true⟩]
    else none
  readFile := fun _ => none

/-- C7: every listing is ordered with directories before files and
case-sensitive ascending byte order on names within each group, and the
concrete directory holding `.hidden.md`, `readme.md`, `Z.json`, `a.md`
lists exactly `Z.json`, `a.md`, `readme.md` in that order under the
startup configuration (which sets ignoreHidden). -/
theorem listing_sorted :
    (∀ (fs : FS) (cfg : Config) (baseDir requestedDir : String) (l : List FileInfo),
      listFiles fs cfg baseDir requestedDir = ListResult.ok l →
      l.Pairwise (fun a b =>
        (a.isDir = true ∧ b.isDir = false) ∨
          (a.isDir = b.isDir ∧ (charListLt a.name.data b.name.data = true ∨ a.name = b.name)))) ∧
    listFiles c7fs defaultConfig "/w" "" =
      ListResult.ok [⟨"Z.json", "Z.json", false, 3, 3⟩, ⟨"a.md", "a.md", false, 4, 4⟩,
        ⟨"readme.md", "readme.md", false, 2, 2⟩] := by
  refine ⟨?_, rfl⟩
  intro fs cfg baseDir requestedDir l hl
  rw [listFiles] at hl
  rcases hst : fs.stat (listRoot baseDir requestedDir) with _ | b
  · rw [hst] at hl
    exact absurd hl (by simp)
  · rw [hst] at hl
    rcases b
    · exact absurd hl (by simp)
    · rcases hrd : fs.readDir (listRoot baseDir requestedDir) with _ | entries
      · rw [hrd] at hl
        exact absurd hl (by simp)
      · rw [hrd] at hl
        simp only [ListResult.ok.injEq] at hl
        subst hl
        exact (pairwise_sortLe fileLe_total fileLe_trans _).imp fun hab => fileLe_imp _ _ hab

/-- C7 witness: the order property instantiated on the concrete
listing. -/
theorem listing_sorted_witness :
    ([⟨"Z.json", "Z.json", false, 3, 3⟩, ⟨"a.md", "a.md", false, 4, 4⟩,
        ⟨"readme.md", "readme.md", false, 2, 2⟩] : List FileInfo).Pairwise (fun a b =>
      (a.isDir = true ∧ b.isDir = false) ∨
        (a.isDir = b.isDir ∧ (charListLt a.name.data b.name.data = true ∨ a.name = b.name))) :=
  listing_sorted.1 c7fs defaultConfig "/w" "" _ listing_sorted.2

/-! ## Subdirectory-relevance claim -/

theorem includeEntry_name {fs : FS} {cfg : Config} {rootDir : String} {e : DirEnt}
    {fi : FileInfo} (h : includeEntry fs cfg rootDir e = some fi) : fi.name = e.name := by
  unfold includeEntry at h
  repeat' split at h
  all_goals first
    | cases h
    | (injection h with h2
       exact h2 ▸ rfl)
    | (simp at h
       all_goals
         obtain ⟨-, -, h3⟩ := h
         rcases hpr : pathRel rootDir (pathJoin rootDir e.name) with _ | rp <;> rw [hpr] at h3
         · cases h3
         · injection h3 with h2
           exact h2 ▸ rfl)

theorem nodup_names_inj {entries : List DirEnt} (hnd : (entries.map DirEnt.name).Nodup)
    {e e' : DirEnt} (he : e ∈ entries) (he' : e' ∈ entries) (hname : e.name = e'.name) :
    e = e' :=
  List.inj_on_of_nodup_map hnd he he' hname

/-- C6: a subdirectory entry that passes the hidden/skip/info filters is
included in the listing exactly when the shallow one-level scan of it
finds a non-directory child with an allowed lower-cased extension; a
subdirectory whose immediate children are all directories is excluded,
however deep files may sit below them. -/
theorem subdir_relevance (fs : FS) (cfg : Config) (baseDir requestedDir : String)
    (l : List FileInfo) (entries : List DirEnt) (e : DirEnt) (rp : String)
    (hl : listFiles fs cfg baseDir requestedDir = ListResult.ok l)
    (hrd : fs.readDir (listRoot baseDir requestedDir) = some entries)
    (hnd : (entries.map DirEnt.name).Nodup)
    (he : e ∈ entries)
    (hdir : e.isDir = true)
    (hhid : ¬ (cfg.ignoreHidden = true ∧ strHasPrefix e.name "." = true))
    (hskip : ¬ (e.name = "node_modules" ∨
      containsSub "node_modules".data
        (pathJoin (listRoot baseDir requestedDir) e.name).data = true ∨
      e.name = "build" ∨ e.name = "dist"))
    (hinfo : e.infoOk = true)
    (hrel : pathRel (listRoot baseDir requestedDir)
      (pathJoin (listRoot baseDir requestedDir) e.name) = some rp) :
    ((∃ fi ∈ l, fi.name = e.name) ↔
      dirHasRelevant fs cfg (pathJoin (listRoot baseDir requestedDir) e.name) = true) ∧
    ((∀ s ∈ (fs.readDir (pathJoin (listRoot baseDir requestedDir) e.name)).getD [],
        s.isDir = true) →
      ¬ ∃ fi ∈ l, fi.name = e.name) := by
  rw [listFiles] at hl
  rcases hst : fs.stat (listRoot baseDir requestedDir) with _ | b
  · rw [hst] at hl
    exact absurd hl (by simp)
  · rw [hst] at hl
    rcases b
    · exact absurd hl (by simp)
    · rw [hrd] at hl
      simp only [ListResult.ok.injEq] at hl
      subst hl
      have hinc : ∀ hrelv : dirHasRelevant fs cfg
          (pathJoin (listRoot baseDir requestedDir) e.name) = true,
          includeEntry fs cfg (listRoot baseDir requestedDir) e =
            some ⟨e.name, rp, e.isDir, e.size, e.modTime⟩ := by
        intro hrelv
        unfold includeEntry
        rw [if_neg hhid, if_neg (fun hc => hskip hc.2),
          if_neg (not_not_intro hinfo), if_neg (fun hc => hc.1 hdir),
          if_neg (fun hc => hc.2 hrelv), hrel]
      have hnone : dirHasRelevant fs cfg
          (pathJoin (listRoot baseDir requestedDir) e.name) = false →
          includeEntry fs cfg (listRoot baseDir requestedDir) e = none := by
        intro hrelv
        unfold includeEntry
        rw [if_neg hhid, if_neg (fun hc => hskip hc.2),
          if_neg (not_not_intro hinfo), if_neg (fun hc => hc.1 hdir),
          if_pos ⟨hdir, fun ht => by rw [hrelv] at ht; cases ht⟩]
      have hiff : (∃ fi ∈ sortLe fileLe
          (entries.filterMap (includeEntry fs cfg (listRoot baseDir requestedDir))),
          fi.name = e.name) ↔
          dirHasRelevant fs cfg (pathJoin (listRoot baseDir requestedDir) e.name) = true := by
        constructor
        · rintro ⟨fi, hfi, hname⟩
          rw [mem_sortLe, List.mem_filterMap] at hfi
          rcases hfi with ⟨e', he', hie'⟩
          have : e' = e := nodup_names_inj hnd he' he ((includeEntry_name hie').symm.trans hname)
          subst this
          by_contra hnr
          rw [Bool.not_eq_true] at hnr
          rw [hnone hnr] at hie'
          cases hie'
        · intro hrelv
          refine ⟨⟨e.name, rp, e.isDir, e.size, e.modTime⟩, ?_, rfl⟩
          rw [mem_sortLe, List.mem_filterMap]
          exact ⟨e, he, hinc hrelv⟩
      refine ⟨hiff, ?_⟩
      intro hall hex
      have hrelv := hiff.mp hex
      rw [dirHasRelevant] at hrelv
      rcases hsub : fs.readDir (pathJoin (listRoot baseDir requestedDir) e.name) with _ | subs
      · rw [hsub] at hrelv
        cases hrelv
      · rw [hsub] at hrelv
        rcases List.any_eq_true.mp hrelv with ⟨s, hs, hp⟩
        rw [decide_eq_true_eq] at hp
        have := hall s (by rw [hsub]; exact hs)
        exact hp.1 this

/-- C6 witness: the `docs` subdirectory of the concrete filesystem
holds `notes.md`, so it appears in the listing, matching the relevance
scan. -/
theorem subdir_relevance_witness :
    (∃ fi ∈ [(⟨"docs", "docs", true, 0, 0⟩ : FileInfo)], fi.name = "docs") ↔
      dirHasRelevant c1fs defaultConfig (pathJoin (listRoot "/w" "") "docs") = true := by
  have h := subdir_relevance c1fs defaultConfig "/w" "" [⟨"docs", "docs", true, 0, 0⟩]
    [⟨"docs", true, 0, 0, true⟩] ⟨"docs", true, 0, 0, true⟩ "docs"
    (by decide) (by decide) (by decide) (by decide) (by decide) (by decide) (by decide)
    (by decide) (by decide)
  exact h.1

/-! ## Path-normal-form lemmas for the listing invariant -/

/-- A well-formed path element: non-empty, separator-free and not a dot
element.  Real directory entries always satisfy this. -/
def validSeg (s : List Char) : Prop :=
  s ≠ [] ∧ '/' ∉ s ∧ s ≠ ['.'] ∧ s ≠ ['.', '.']

instance validSeg.instDecidable (s : List Char) : Decidable (validSeg s) :=
  inferInstanceAs (Decidable (s ≠ [] ∧ '/' ∉ s ∧ s ≠ ['.'] ∧ s ≠ ['.', '.']))

theorem splitOnChar_ne_nil (sep : Char) : ∀ l : List Char, splitOnChar sep l ≠ []
  | [] => by simp [splitOnChar]
  | c :: cs => by
    rw [splitOnChar]
    split
    · simp
    · split <;> simp

theorem splitOnChar_append_sep (sep : Char) :
    ∀ (a b : List Char), splitOnChar sep (a ++ sep :: b) = splitOnChar sep a ++ splitOnChar sep b
  | [], b => by simp [splitOnChar]
  | c :: cs, b => by
    by_cases hc : c = sep
    · rw [hc, List.cons_append, splitOnChar, if_pos rfl, splitOnChar, if_pos rfl,
        splitOnChar_append_sep sep cs b, List.cons_append]
    · rw [List.cons_append, splitOnChar, if_neg hc, splitOnChar_append_sep sep cs b]
      rcases hs : splitOnChar sep cs with _ | ⟨g, gs⟩
      · exact absurd hs (splitOnChar_ne_nil sep cs)
      · rw [splitOnChar, if_neg hc, hs]
        simp

theorem splitOnChar_intercalate (sep : Char) :
    ∀ segs : List (List Char), segs ≠ [] → (∀ s ∈ segs, sep ∉ s) →
      splitOnChar sep (intercalateChar sep segs) = segs
  | [], h, _ => absurd rfl h
  | [g], _, hs => by
    rw [intercalateChar]
    exact splitOnChar_not_mem (hs g (List.mem_cons_self g []))
  | g :: g' :: gs, _, hs => by
    rw [intercalateChar, splitOnChar_append_sep sep g (intercalateChar sep (g' :: gs)),
      splitOnChar_not_mem (hs g (List.mem_cons_self g (g' :: gs))),
      splitOnChar_intercalate sep (g' :: gs) (List.cons_ne_nil g' gs)
        (fun s hmem => hs s (List.mem_cons_of_mem g hmem))]
    · rfl
    · exact fun h => List.noConfusion h

theorem intercalateChar_append_single (sep : Char) :
    ∀ (segs : List (List Char)) (x : List Char), segs ≠ [] →
      intercalateChar sep (segs ++ [x]) = intercalateChar sep segs ++ sep :: x
  | [], _, h => absurd rfl h
  | [g], x, _ => by simp [intercalateChar]
  | g :: g' :: gs, x, _ => by
    rw [List.cons_append, intercalateChar]
    · rw [intercalateChar_append_single sep (g' :: gs) x (List.cons_ne_nil g' gs)]
      rcases gs with _ | ⟨g'', gs'⟩ <;> simp [intercalateChar]
    · exact fun h => List.noConfusion h

theorem validSeg_not_mem_sep {s : List Char} (h : validSeg s) : '/' ∉ s :=
  h.2.1

theorem intercalateChar_valid_ne_nil (segs : List (List Char))
    (hsegs : segs ≠ []) (hv : ∀ s ∈ segs, validSeg s) : intercalateChar '/' segs ≠ [] := by
  rcases segs with _ | ⟨g, gs⟩
  · exact absurd rfl hsegs
  · rcases gs with _ | ⟨g', gs'⟩
    · rw [intercalateChar]
      exact (hv g (List.mem_cons_self g [])).1
    · rw [intercalateChar]
      · rcases hg : g with _ | ⟨c, cs⟩
        · exact absurd rfl (hg ▸ (hv g (List.mem_cons_self g (g' :: gs'))).1)
        · simp
      · exact fun h => List.noConfusion h

theorem cleanStep_valid (rooted : Bool) (stack : List (List Char)) {s : List Char}
    (hs : validSeg s) : cleanStep rooted stack s = s :: stack := by
  rw [cleanStep.eq_def, if_neg (by push_neg; exact ⟨hs.1, hs.2.2.1⟩), if_neg hs.2.2.2]

theorem foldl_cleanStep_valid (rooted : Bool) :
    ∀ (segs : List (List Char)) (stack : List (List Char)), (∀ s ∈ segs, validSeg s) →
      segs.foldl (cleanStep rooted) stack = segs.reverse ++ stack
  | [], stack, _ => by simp
  | s :: ss, stack, h => by
    rw [List.foldl_cons, cleanStep_valid rooted stack (h s (List.mem_cons_self s ss)),
      foldl_cleanStep_valid rooted ss (s :: stack)
        (fun x hx => h x (List.mem_cons_of_mem s hx))]
    simp

theorem pathCleanData_abs (segs : List (List Char)) (hv : ∀ s ∈ segs, validSeg s) :
    pathCleanData ('/' :: intercalateChar '/' segs) = '/' :: intercalateChar '/' segs := by
  rcases hsegs : segs with _ | ⟨g, gs⟩
  · rfl
  · subst hsegs
    have hsplit : splitOnChar '/' ('/' :: intercalateChar '/' (g :: gs)) =
        [] :: g :: gs := by
      rw [splitOnChar, if_pos rfl,
        splitOnChar_intercalate '/' (g :: gs) (List.cons_ne_nil g gs)
          (fun s hs => validSeg_not_mem_sep (hv s hs))]
    rw [pathCleanData]
    simp only [List.head?_cons, beq_self_eq_true, if_neg (List.cons_ne_nil '/' _), hsplit,
      if_true]
    rw [show List.foldl (cleanStep true) [] ([] :: g :: gs) =
        List.foldl (cleanStep true) [] (g :: gs) from rfl,
      foldl_cleanStep_valid true (g :: gs) [] hv]
    simp

theorem pathJoin_abs_child (segs : List (List Char)) (name : String) (hsegs : segs ≠ [])
    (hv : ∀ s ∈ segs, validSeg s) (hn : validSeg name.data) :
    pathJoin ⟨'/' :: intercalateChar '/' segs⟩ name =
      ⟨'/' :: intercalateChar '/' (segs ++ [name.data])⟩ := by
  rw [pathJoin, if_neg (by
    intro hcon
    have h2 := congrArg String.data hcon
    simp at h2)]
  have hdata : (⟨'/' :: intercalateChar '/' segs⟩ : String).data ++ '/' :: name.data =
      '/' :: intercalateChar '/' (segs ++ [name.data]) := by
    show ('/' :: intercalateChar '/' segs) ++ '/' :: name.data = _
    rw [intercalateChar_append_single '/' segs name.data hsegs]
    simp
  rw [hdata, pathCleanData_abs (segs ++ [name.data]) (by
    intro s hs
    rcases List.mem_append.mp hs with h | h
    · exact hv s h
    · rw [List.mem_singleton.mp h]
      exact hn)]

theorem dropCommon_self_append :
    ∀ (segs t : List (List Char)), dropCommon segs (segs ++ t) = ([], t)
  | [], t => by cases t <;> rfl
  | s :: ss, t => by
    rw [List.cons_append, dropCommon, if_pos rfl]
    exact dropCommon_self_append ss t

theorem pathRel_child (segs : List (List Char)) (name : String) (hsegs : segs ≠ [])
    (hv : ∀ s ∈ segs, validSeg s) (hn : validSeg name.data) :
    pathRel ⟨'/' :: intercalateChar '/' segs⟩ ⟨'/' :: intercalateChar '/' (segs ++ [name.data])⟩ =
      some name := by
  have hvext : ∀ s ∈ segs ++ [name.data], validSeg s := by
    intro s hs
    rcases List.mem_append.mp hs with h | h
    · exact hv s h
    · rw [List.mem_singleton.mp h]
      exact hn
  have hbase : pathClean ⟨'/' :: intercalateChar '/' segs⟩ =
      ⟨'/' :: intercalateChar '/' segs⟩ := by
    rw [pathClean]
    exact congrArg String.mk (pathCleanData_abs segs hv)
  have htarg : pathClean ⟨'/' :: intercalateChar '/' (segs ++ [name.data])⟩ =
      ⟨'/' :: intercalateChar '/' (segs ++ [name.data])⟩ := by
    rw [pathClean]
    exact congrArg String.mk (pathCleanData_abs (segs ++ [name.data]) hvext)
  have hneq : (⟨'/' :: intercalateChar '/' (segs ++ [name.data])⟩ : String) ≠
      ⟨'/' :: intercalateChar '/' segs⟩ := by
    intro hcon
    have hd := congrArg (fun s => s.data.length) hcon
    simp only [List.length_cons] at hd
    rw [intercalateChar_append_single '/' segs name.data hsegs] at hd
    simp at hd
  have hbne : (⟨'/' :: intercalateChar '/' segs⟩ : String) ≠ "." := by
    intro hcon
    have h2 := congrArg String.data hcon
    rw [show ("." : String).data = ['.'] from rfl] at h2
    have h3 := List.head_eq_of_cons_eq h2
    exact absurd h3 (by decide)
  have hrs1 : relSegs ⟨'/' :: intercalateChar '/' segs⟩ = [] :: segs := by
    rw [relSegs]
    have hne := intercalateChar_valid_ne_nil segs hsegs hv
    rw [if_neg (by simp), if_neg (by simpa using hne)]
    show splitOnChar '/' ('/' :: intercalateChar '/' segs) = _
    rw [splitOnChar, if_pos rfl,
      splitOnChar_intercalate '/' segs hsegs (fun s hs => validSeg_not_mem_sep (hv s hs))]
  have hrs2 : relSegs ⟨'/' :: intercalateChar '/' (segs ++ [name.data])⟩ =
      [] :: (segs ++ [name.data]) := by
    rw [relSegs]
    have hne := intercalateChar_valid_ne_nil (segs ++ [name.data]) (by simp) hvext
    rw [if_neg (by simp), if_neg (by simpa using hne)]
    show splitOnChar '/' ('/' :: intercalateChar '/' (segs ++ [name.data])) = _
    rw [splitOnChar, if_pos rfl,
      splitOnChar_intercalate '/' (segs ++ [name.data]) (by simp)
        (fun s hs => validSeg_not_mem_sep (hvext s hs))]
  rw [pathRel]
  simp only [hbase, htarg, if_neg hneq, if_neg hbne, hrs1, hrs2]
  rw [show ((⟨'/' :: intercalateChar '/' segs⟩ : String).data.head? == some '/') = true from rfl,
    show ((⟨'/' :: intercalateChar '/' (segs ++ [name.data])⟩ :
      String).data.head? == some '/') = true from rfl]
  rw [if_neg (by simp), dropCommon, if_pos rfl, dropCommon_self_append]
  rfl

theorem includeEntry_path {fs : FS} {cfg : Config} {rootDir : String} {e : DirEnt}
    {fi : FileInfo} (h : includeEntry fs cfg rootDir e = some fi) :
    pathRel rootDir (pathJoin rootDir e.name) = some fi.path := by
  unfold includeEntry at h
  repeat' split at h
  all_goals first
    | cases h
    | (injection h with h2
       rw [← h2]
       assumption)
    | (simp at h
       all_goals
         obtain ⟨-, -, h3⟩ := h
         rcases hpr : pathRel rootDir (pathJoin rootDir e.name) with _ | rp <;> rw [hpr] at h3
         · cases h3
         · injection h3 with h2
           rw [← h2])

/-- C9: every FileEntry of a listing carries as its relativePath exactly
the name of an immediate child of the listed directory, and resolving
that relativePath against the listed directory lands on that child —
the path `root/name` inside the directory.  The hypotheses state that
the listed root is a cleaned absolute path other than `/` and that
directory entries bear well-formed names, both true of a real
filesystem. -/
theorem listing_entries_within (fs : FS) (cfg : Config) (baseDir requestedDir : String)
    (segs : List (List Char)) (l : List FileInfo) (fi : FileInfo)
    (hl : listFiles fs cfg baseDir requestedDir = ListResult.ok l)
    (hfi : fi ∈ l)
    (hroot : (listRoot baseDir requestedDir).data = '/' :: intercalateChar '/' segs)
    (hsegs : segs ≠ [])
    (hv : ∀ s ∈ segs, validSeg s)
    (hnames : ∀ e ∈ (fs.readDir (listRoot baseDir requestedDir)).getD [],
      validSeg e.name.data) :
    fi.path = fi.name ∧
    (∃ e ∈ (fs.readDir (listRoot baseDir requestedDir)).getD [], e.name = fi.name) ∧
    (pathJoin (listRoot baseDir requestedDir) fi.path).data =
      (listRoot baseDir requestedDir).data ++ '/' :: fi.name.data := by
  have hrootS : listRoot baseDir requestedDir = ⟨'/' :: intercalateChar '/' segs⟩ :=
    String.ext hroot
  rw [listFiles] at hl
  rcases hst : fs.stat (listRoot baseDir requestedDir) with _ | b
  · rw [hst] at hl
    exact absurd hl (by simp)
  · rw [hst] at hl
    rcases b
    · exact absurd hl (by simp)
    · rcases hrd : fs.readDir (listRoot baseDir requestedDir) with _ | entries
      · rw [hrd] at hl
        exact absurd hl (by simp)
      · rw [hrd] at hl
        simp only [ListResult.ok.injEq] at hl
        subst hl
        rw [mem_sortLe, List.mem_filterMap] at hfi
        rcases hfi with ⟨e, he, hie⟩
        have hen : validSeg e.name.data := hnames e (by rw [hrd]; exact he)
        have hjoin : pathJoin (listRoot baseDir requestedDir) e.name =
            ⟨'/' :: intercalateChar '/' (segs ++ [e.name.data])⟩ := by
          rw [hrootS]
          exact pathJoin_abs_child segs e.name hsegs hv hen
        have hrel : pathRel (listRoot baseDir requestedDir)
            (pathJoin (listRoot baseDir requestedDir) e.name) = some e.name := by
          rw [hjoin, hrootS]
          exact pathRel_child segs e.name hsegs hv hen
        have hpath := includeEntry_path hie
        rw [hrel] at hpath
        have hpe : fi.path = e.name := by
          injection hpath with h2
          exact h2.symm
        have hne : fi.name = e.name := includeEntry_name hie
        refine ⟨hpe.trans hne.symm, ⟨e, he, hne.symm⟩, ?_⟩
        rw [hpe, hjoin]
        show '/' :: intercalateChar '/' (segs ++ [e.name.data]) = _

        rw [intercalateChar_append_single '/' segs e.name.data hsegs, hroot, hne]
        simp

/-- C9 witness: the single entry of the concrete listing rejoins to
`/w/docs`, inside the listed directory `/w`. -/
theorem listing_entries_within_witness :
    ((⟨"docs", "docs", true, 0, 0⟩ : FileInfo).path =
      (⟨"docs", "docs", true, 0, 0⟩ : FileInfo).name) ∧
    (∃ e ∈ (c1fs.readDir (listRoot "/w" "")).getD [],
      e.name = (⟨"docs", "docs", true, 0, 0⟩ : FileInfo).name) ∧
    (pathJoin (listRoot "/w" "") (⟨"docs", "docs", true, 0, 0⟩ : FileInfo).path).data =
      (listRoot "/w" "").data ++ '/' :: (⟨"docs", "docs", true, 0, 0⟩ : FileInfo).name.data :=
  listing_entries_within c1fs defaultConfig "/w" "" [['w']]
    [⟨"docs", "docs", true, 0, 0⟩] ⟨"docs", "docs", true, 0, 0⟩
    (by decide) (by decide) (by decide) (by decide) (by decide) (by decide)

end Fileserver
